import Mathlib

/-!
Verification development for the youtube-summary repository.

The Python code is shallowly embedded in Lean: Python strings are modelled
as lists of Unicode characters (`List Char`, matching Python's view of a
string as a sequence of code points), Notion blocks as an inductive type,
and the per-page orchestrator of `youtube_notion_summarizer.py` as a pure
function producing a list of store effects.  Pagination of the Notion reads
is flattened into a single list of blocks; network calls are modelled as
oracles passed in as arguments.
-/

set_option maxRecDepth 4000

namespace YTSum

/-- Python strings as sequences of code points. -/
abbrev PyStr := List Char

/-- Whitespace test used by Python's `str.strip` family (modelled by
`Char.isWhitespace`, which covers the whitespace occurring in this data). -/
def pyWS (c : Char) : Bool := c.isWhitespace

/-- Python `str.lstrip()`. -/
def pyLstrip (l : PyStr) : PyStr := l.dropWhile pyWS

/-- Python `str.rstrip()`. -/
def pyRstrip (l : PyStr) : PyStr := l.rdropWhile pyWS

/-- Python `str.strip()`. -/
def pyStrip (l : PyStr) : PyStr := (l.dropWhile pyWS).rdropWhile pyWS

/-- Python `str.split(sep)` for a single-character separator:
`"".split(c) = [""]`, and occurrences of `c` delimit the fields. -/
def splitOnChar (sep : Char) : PyStr → List PyStr
  | [] => [[]]
  | c :: rest =>
    if c = sep then [] :: splitOnChar sep rest
    else
      match splitOnChar sep rest with
      | [] => [[c]]
      | h :: t => (c :: h) :: t

/-- Python `text.split("\n\n")`: split on the two-character separator,
left to right, non-overlapping. -/
def splitOnBlank : PyStr → List PyStr
  | [] => [[]]
  | '\n' :: '\n' :: rest => [] :: splitOnBlank rest
  | c :: rest =>
    match splitOnBlank rest with
    | [] => [[c]]
    | h :: t => (c :: h) :: t

/-- Worker for `pySplitlines`: accumulates the current line (reversed) and
ends a line at `\n`, `\r\n` or `\r`; a terminator at the very end of the
input produces no trailing empty line. -/
def splitlinesGo : List Char → List Char → List (List Char)
  | [], acc => [acc.reverse]
  | '\r' :: '\n' :: rest, acc =>
    acc.reverse :: (if rest = [] then [] else splitlinesGo rest [])
  | '\n' :: rest, acc =>
    acc.reverse :: (if rest = [] then [] else splitlinesGo rest [])
  | '\r' :: rest, acc =>
    acc.reverse :: (if rest = [] then [] else splitlinesGo rest [])
  | c :: rest, acc => splitlinesGo rest (c :: acc)

/-- Python `str.splitlines()` (restricted to the `\n`/`\r\n`/`\r`
terminators occurring in this data); `"".splitlines() = []`. -/
def pySplitlines (l : PyStr) : List PyStr :=
  if l = [] then [] else splitlinesGo l []

/-- One Notion rich-text item as produced/consumed by this code: its text
content and its bold annotation (a missing `annotations` field in the
Python dict means the Notion default, bold = false). -/
structure RichText where
  content : PyStr
  bold : Bool
deriving DecidableEq, Repr

/-- Concatenated plain text of a rich-text list, as computed by
`"".join(r.get("plain_text", "") for r in rich)`. -/
def richPlainText (rs : List RichText) : PyStr :=
  (rs.map RichText.content).flatten

/-- The Notion block shapes this program reads or writes. -/
inductive Block where
  | heading1 (rich : List RichText)
  | heading2 (rich : List RichText)
  | heading3 (rich : List RichText)
  | paragraph (rich : List RichText)
  | numberedListItem (rich : List RichText)
  | divider
deriving DecidableEq, Repr

/-- The heading marker `內容摘要` used by the idempotency guard. -/
def summaryMarker : PyStr := "內容摘要".data

/-- Python's substring test `sub in l`, as a decidable infix check. -/
def pyContains (sub l : PyStr) : Bool := decide (sub <:+: l)

/-- True when a block is a heading (`heading_1`/`heading_2`/`heading_3`)
whose concatenated plain text contains `內容摘要`
(`youtube_notion_summarizer.py`, lines 85-91). -/
def isMarkerHeading (b : Block) : Bool :=
  match b with
  | .heading1 r => pyContains summaryMarker (richPlainText r)
  | .heading2 r => pyContains summaryMarker (richPlainText r)
  | .heading3 r => pyContains summaryMarker (richPlainText r)
  | _ => false

/-- `has_summary_heading` (lines 77-95), with the paginated read flattened
into one block list; the loop's early `return True` is `List.any`. -/
def has_summary_heading (blocks : List Block) : Bool :=
  blocks.any isMarkerHeading

/-- `MAX_TRANSCRIPT_CHARS` (line 38). -/
def MAX_TRANSCRIPT_CHARS : Nat := 60000

/-- The stripped, non-empty paragraph texts collected by
`extract_transcript_text` (lines 104-119). -/
def transcriptParts (blocks : List Block) : List PyStr :=
  blocks.filterMap fun b =>
    match b with
    | .paragraph r =>
      let t := pyStrip (richPlainText r)
      if t = [] then none else some t
    | _ => none

/-- The newline-joined paragraph text before the length check
(the variable `full` at line 120). -/
def full_transcript_text (blocks : List Block) : PyStr :=
  List.intercalate ['\n'] (transcriptParts blocks)

/-- `extract_transcript_text` (lines 98-123): newline-join the paragraph
texts and truncate the result to `MAX_TRANSCRIPT_CHARS`. -/
def extract_transcript_text (blocks : List Block) : PyStr :=
  let full := full_transcript_text blocks
  if MAX_TRANSCRIPT_CHARS < full.length then full.take MAX_TRANSCRIPT_CHARS
  else full

/-- True when the text starts with the two-character emphasis delimiter
`**` (the `text.startswith("**", i)` test at line 225). -/
def startsBold (l : List Char) : Bool := decide (l.take 2 = ['*', '*'])

theorem startsBold_length {l : List Char} (h : startsBold l = true) :
    2 ≤ l.length := by
  have ht : l.take 2 = ['*', '*'] := by simpa [startsBold] using h
  have h2 := congrArg List.length ht
  simp [List.length_take] at h2
  omega

/-- Index of the first occurrence of `**` (the `text.find("**", i)` call at
line 229); `none` models Python's `-1`. -/
def findBold : List Char → Option Nat
  | [] => none
  | c :: rest =>
    if startsBold (c :: rest) then some 0
    else (findBold rest).map (· + 1)

theorem findBold_pos {c : Char} {rest : List Char} {j : Nat}
    (hb : startsBold (c :: rest) = false) (hf : findBold (c :: rest) = some j) :
    1 ≤ j := by
  unfold findBold at hf
  rw [hb] at hf
  simp at hf
  obtain ⟨k, -, hk⟩ := hf
  omega

/-- The scanning loop of `md_to_rich_text` (lines 221-243), with an
explicit fuel argument bounding the number of iterations (each iteration
strictly advances the position `i`, so `text.length` fuel is enough): a
`**` delimiter toggles the bold flag; the text up to the next delimiter
(or the end) is emitted as one span, if non-empty, under the current
flag. -/
def mdLoopF : Nat → List Char → Bool → List RichText
  | 0, _, _ => []
  | fuel + 1, l, bold =>
    if startsBold l then mdLoopF fuel (l.drop 2) (!bold)
    else
      match l with
      | [] => []
      | c :: rest =>
        match findBold (c :: rest) with
        | none => [⟨c :: rest, bold⟩]
        | some j => ⟨(c :: rest).take j, bold⟩ :: mdLoopF fuel ((c :: rest).drop j) bold

theorem mdLoopF_nil (fuel : Nat) (b : Bool) : mdLoopF fuel [] b = [] := by
  cases fuel with
  | zero => rfl
  | succ n => simp [mdLoopF, startsBold]

theorem mdLoopF_fuel :
    ∀ (f₁ : Nat) {f₂ : Nat} {l : List Char} {b : Bool},
      l.length ≤ f₁ → l.length ≤ f₂ → mdLoopF f₁ l b = mdLoopF f₂ l b := by
  intro f₁
  induction f₁ with
  | zero =>
    intro f₂ l b h1 _
    have : l = [] := by
      cases l with
      | nil => rfl
      | cons c r => simp at h1
    subst this
    rw [mdLoopF_nil, mdLoopF_nil]
  | succ n ih =>
    intro f₂ l b h1 h2
    cases l with
    | nil => rw [mdLoopF_nil, mdLoopF_nil]
    | cons c rest =>
      cases f₂ with
      | zero => simp at h2
      | succ m =>
        by_cases hsb : startsBold (c :: rest)
        · have hlen := startsBold_length hsb
          simp only [mdLoopF, hsb, if_true]
          apply ih
          · simp at h1 ⊢
            omega
          · simp at h2 ⊢
            omega
        · simp only [mdLoopF, hsb, if_false, Bool.false_eq_true]
          cases hf : findBold (c :: rest) with
          | none => simp
          | some j =>
            have hj := findBold_pos (by simpa using hsb) hf
            simp only [List.cons.injEq, true_and]
            apply ih
            · simp at h1 ⊢
              omega
            · simp at h2 ⊢
              omega

/-- The loop of `md_to_rich_text`, run with enough fuel. -/
def mdLoop (l : List Char) (bold : Bool) : List RichText :=
  mdLoopF l.length l bold

theorem mdLoop_nil (b : Bool) : mdLoop [] b = [] := mdLoopF_nil 0 b

theorem mdLoop_bold {l : List Char} (b : Bool) (hsb : startsBold l = true) :
    mdLoop l b = mdLoop (l.drop 2) (!b) := by
  have hlen := startsBold_length hsb
  obtain ⟨n, hn⟩ : ∃ n, l.length = n + 1 := ⟨l.length - 1, by omega⟩
  unfold mdLoop
  rw [hn]
  cases l with
  | nil => simp at hn
  | cons c rest =>
    simp only [mdLoopF, hsb, if_true]
    apply mdLoopF_fuel
    · simp at hn ⊢
      omega
    · simp

theorem mdLoop_none {c : Char} {rest : List Char} (b : Bool)
    (hsb : startsBold (c :: rest) = false)
    (hf : findBold (c :: rest) = none) :
    mdLoop (c :: rest) b = [⟨c :: rest, b⟩] := by
  unfold mdLoop
  simp only [List.length_cons, mdLoopF, hsb, if_false, Bool.false_eq_true, hf]

theorem mdLoop_some {c : Char} {rest : List Char} {j : Nat} (b : Bool)
    (hsb : startsBold (c :: rest) = false)
    (hf : findBold (c :: rest) = some j) :
    mdLoop (c :: rest) b
      = ⟨(c :: rest).take j, b⟩ :: mdLoop ((c :: rest).drop j) b := by
  have hj := findBold_pos hsb hf
  unfold mdLoop
  simp only [List.length_cons, mdLoopF, hsb, if_false, Bool.false_eq_true, hf]
  simp only [List.cons.injEq, true_and]
  apply mdLoopF_fuel
  · simp
    omega
  · simp

/-- `md_to_rich_text` (lines 216-246): run the scan, then the fallback
which appends a single span carrying the whole input (with no bold
annotation, hence bold = false) when no span was produced. -/
def md_to_rich_text (l : PyStr) : List RichText :=
  let parts := mdLoop l false
  if parts = [] then [⟨l, false⟩] else parts

/-- The delimiter removal described by the claim: scan left to right and
delete non-overlapping occurrences of `**`, keeping everything else
(fuel-bounded; `l.length` fuel is enough). -/
def stripDelimsF : Nat → List Char → List Char
  | 0, _ => []
  | fuel + 1, l =>
    if startsBold l then stripDelimsF fuel (l.drop 2)
    else
      match l with
      | [] => []
      | c :: rest => c :: stripDelimsF fuel rest

theorem stripDelimsF_nil (fuel : Nat) : stripDelimsF fuel [] = [] := by
  cases fuel with
  | zero => rfl
  | succ n => simp [stripDelimsF, startsBold]

theorem stripDelimsF_fuel :
    ∀ (f₁ : Nat) {f₂ : Nat} {l : List Char},
      l.length ≤ f₁ → l.length ≤ f₂ → stripDelimsF f₁ l = stripDelimsF f₂ l := by
  intro f₁
  induction f₁ with
  | zero =>
    intro f₂ l h1 _
    have : l = [] := by
      cases l with
      | nil => rfl
      | cons c r => simp at h1
    subst this
    rw [stripDelimsF_nil, stripDelimsF_nil]
  | succ n ih =>
    intro f₂ l h1 h2
    cases l with
    | nil => rw [stripDelimsF_nil, stripDelimsF_nil]
    | cons c rest =>
      cases f₂ with
      | zero => simp at h2
      | succ m =>
        by_cases hsb : startsBold (c :: rest)
        · have hlen := startsBold_length hsb
          simp only [stripDelimsF, hsb, if_true]
          apply ih
          · simp at h1 ⊢
            omega
          · simp at h2 ⊢
            omega
        · simp only [stripDelimsF, hsb, if_false, Bool.false_eq_true,
            List.cons.injEq, true_and]
          apply ih
          · simp at h1 ⊢
            omega
          · simp at h2 ⊢
            omega

/-- Delimiter removal described by the claim, run with enough fuel. -/
def stripDelims (l : List Char) : List Char := stripDelimsF l.length l

theorem stripDelims_nil : stripDelims [] = [] := stripDelimsF_nil 0

theorem stripDelims_bold {l : List Char} (hsb : startsBold l = true) :
    stripDelims l = stripDelims (l.drop 2) := by
  have hlen := startsBold_length hsb
  obtain ⟨n, hn⟩ : ∃ n, l.length = n + 1 := ⟨l.length - 1, by omega⟩
  unfold stripDelims
  rw [hn]
  cases l with
  | nil => simp at hn
  | cons c rest =>
    simp only [stripDelimsF, hsb, if_true]
    apply stripDelimsF_fuel
    · simp at hn ⊢
      omega
    · simp

theorem stripDelims_cons {c : Char} {rest : List Char}
    (hsb : startsBold (c :: rest) = false) :
    stripDelims (c :: rest) = c :: stripDelims rest := by
  unfold stripDelims
  simp only [List.length_cons, stripDelimsF, hsb, if_false, Bool.false_eq_true,
    List.cons.injEq, true_and]

/-- `CHUNK_SIZE` (line 39). -/
def CHUNK_SIZE : Nat := 1500

/-- The chunk-slicing loop of `build_paragraph_blocks` (lines 260-262),
fuel-bounded (`l.length` fuel is enough since each step consumes
`CHUNK_SIZE = 1500` characters): emit consecutive `CHUNK_SIZE`-sized
slices while text remains. -/
def chunksF : Nat → List Char → List (List Char)
  | 0, _ => []
  | fuel + 1, l =>
    if l = [] then [] else l.take CHUNK_SIZE :: chunksF fuel (l.drop CHUNK_SIZE)

theorem chunksF_fuel :
    ∀ (f₁ : Nat) {f₂ : Nat} {l : List Char},
      l.length ≤ f₁ → l.length ≤ f₂ → chunksF f₁ l = chunksF f₂ l := by
  intro f₁
  induction f₁ with
  | zero =>
    intro f₂ l h1 _
    have hl : l = [] := by
      cases l with
      | nil => rfl
      | cons c r => simp at h1
    subst hl
    cases f₂ with
    | zero => rfl
    | succ m => simp [chunksF]
  | succ n ih =>
    intro f₂ l h1 h2
    by_cases hl : l = []
    · subst hl
      cases f₂ with
      | zero => rfl
      | succ m => simp [chunksF]
    · have hpos : 0 < l.length := List.length_pos.mpr hl
      cases f₂ with
      | zero => omega
      | succ m =>
        simp only [chunksF, hl, if_false, List.cons.injEq, true_and]
        apply ih
        · simp [List.length_drop, CHUNK_SIZE]
          omega
        · simp [List.length_drop, CHUNK_SIZE]
          omega

/-- The chunk slicing, run with enough fuel. -/
def chunksOfSize (l : List Char) : List (List Char) := chunksF l.length l

theorem chunksOfSize_nil : chunksOfSize [] = [] := rfl

theorem chunksOfSize_cons {l : List Char} (hl : l ≠ []) :
    chunksOfSize l = l.take CHUNK_SIZE :: chunksOfSize (l.drop CHUNK_SIZE) := by
  have hpos : 0 < l.length := List.length_pos.mpr hl
  obtain ⟨n, hn⟩ : ∃ n, l.length = n + 1 := ⟨l.length - 1, by omega⟩
  unfold chunksOfSize
  rw [hn]
  simp only [chunksF, hl, if_false, List.cons.injEq, true_and]
  apply chunksF_fuel
  · simp [List.length_drop, CHUNK_SIZE]
    omega
  · simp

/-- The paragraph split of `build_paragraph_blocks` (line 258):
`[p.strip() for p in text.split("\n\n") if p.strip()]`. -/
def splitParagraphs (text : PyStr) : List PyStr :=
  (splitOnBlank text).filterMap fun p =>
    let q := pyStrip p
    if q = [] then none else some q

/-- One transcript paragraph block (lines 264-272): a paragraph whose
rich text is `md_to_rich_text` of the chunk. -/
def mkParagraphBlock (chunk : PyStr) : Block := .paragraph (md_to_rich_text chunk)

/-- `build_paragraph_blocks` (lines 249-273): split into trimmed non-empty
paragraphs on blank lines, then chunk each paragraph; the Python nested
`for`/`while` loops appending to `blocks` are the flat-map below. -/
def build_paragraph_blocks (text : PyStr) : List Block :=
  if text = [] then []
  else (splitParagraphs text).flatMap fun para => (chunksOfSize para).map mkParagraphBlock

/-- The full-width conclusion marker `總結：`. -/
def conclMarkerFull : PyStr := "總結：".data

/-- The half-width conclusion marker `總結:`. -/
def conclMarkerHalf : PyStr := "總結:".data

/-- The `ln.startswith("總結：") or ln.startswith("總結:")` test
(line 293). -/
def isConclusionLine (l : PyStr) : Bool :=
  conclMarkerFull.isPrefixOf l || conclMarkerHalf.isPrefixOf l

/-- The line classification loop of `build_summary_blocks`
(lines 289-301): lines go to the bullet collection until the first
conclusion-marker line, and to the summary collection from there on
(including the marker line itself); the `in_summary` flag is never reset. -/
def classifyLoop : List PyStr → Bool → List PyStr × List PyStr
  | [], _ => ([], [])
  | ln :: rest, inSummary =>
    if isConclusionLine ln then
      let r := classifyLoop rest true
      (r.1, ln :: r.2)
    else if inSummary then
      let r := classifyLoop rest true
      (r.1, ln :: r.2)
    else
      let r := classifyLoop rest false
      (ln :: r.1, r.2)

/-- The trimmed non-empty lines of the summary (line 286). -/
def summaryLines (s : PyStr) : List PyStr :=
  (pySplitlines s).filterMap fun ln =>
    let q := pyStrip ln
    if q = [] then none else some q

/-- The bullet-lines/summary-lines split computed by
`build_summary_blocks`. -/
def splitSummary (s : PyStr) : List PyStr × List PyStr :=
  classifyLoop (summaryLines s) false

/-- Python `str.isdigit` on one character, for the decimal digits
occurring in this data (ASCII and full-width). -/
def pyDigit (c : Char) : Bool := c.isDigit || ('０' ≤ c && c ≤ '９')

/-- Python `str.isdigit`: non-empty and all digits. -/
def pyIsdigitStr (l : PyStr) : Bool := !l.isEmpty && l.all pyDigit

/-- The enumerator delimiters accepted at `raw[2:3]` (line 309). -/
def enumDelims : List PyStr := [['.'], ['、'], ['．']]

/-- The leading-symbol stripping of a bullet line (lines 306-310):
`raw[2:]` after a `"- "` bullet, or `raw[3:]` when `raw[:2].isdigit()`
and `raw[2:3]` is an enumerator delimiter, each followed by `lstrip`. -/
def stripBulletLead (ln : PyStr) : PyStr :=
  if ln.take 2 = "- ".data then pyLstrip (ln.drop 2)
  else if pyIsdigitStr (ln.take 2) ∧ (ln.drop 2).take 1 ∈ enumDelims then
    pyLstrip (ln.drop 3)
  else ln

/-- Python `raw.split(sep, 1)` for a single-character separator that
occurs in `raw`: the part before the first occurrence and the part after
it. -/
def splitAtChar (sep : Char) (l : PyStr) : PyStr × PyStr :=
  (l.takeWhile (· ≠ sep), (l.dropWhile (· ≠ sep)).drop 1)

/-- The title/rest split of a bullet line (lines 313-318): at the first
full-width colon, else at the first half-width colon, else the whole line
is the title. -/
def splitTitleRest (raw : PyStr) : PyStr × PyStr :=
  if raw.contains '：' then splitAtChar '：' raw
  else if raw.contains ':' then splitAtChar ':' raw
  else (raw, [])

/-- Title and rest, each stripped (lines 320-321). -/
def splitTitleBody (raw : PyStr) : PyStr × PyStr :=
  let p := splitTitleRest raw
  (pyStrip p.1, pyStrip p.2)

/-- The full processing of one highlight line: leading-symbol strip, then
title/body split. -/
def highlightTitleBody (ln : PyStr) : PyStr × PyStr :=
  splitTitleBody (stripBulletLead ln)

/-- The rich text of one numbered-list bullet (lines 323-340): a bold
title span when the title is non-empty, then a plain span carrying the
body (preceded by `：` when a title exists) when the body is non-empty. -/
def bulletRich (tb : PyStr × PyStr) : List RichText :=
  (if tb.1 = [] then [] else [⟨tb.1, true⟩]) ++
  (if tb.2 = [] then []
   else [⟨(if tb.1 = [] then [] else "：".data) ++ tb.2, false⟩])

/-- Strip the conclusion marker once from the joined summary body
(lines 354-359). -/
def dropConclMarker (body : PyStr) : PyStr :=
  if conclMarkerFull.isPrefixOf body then pyLstrip (body.drop conclMarkerFull.length)
  else if conclMarkerHalf.isPrefixOf body then pyLstrip (body.drop conclMarkerHalf.length)
  else body

/-- The closing body: space-join the summary lines and strip the marker
once (lines 352-359). -/
def closingBody (summaryLns : List PyStr) : PyStr :=
  dropConclMarker (List.intercalate [' '] summaryLns)

/-- The closing paragraph block (lines 361-377): a bold `總結：` span,
then the body when non-empty. -/
def closingBlock (summaryLns : List PyStr) : Block :=
  .paragraph ([⟨"總結：".data, true⟩] ++
    (if closingBody summaryLns = [] then [] else [⟨closingBody summaryLns, false⟩]))

/-- `build_summary_blocks` (lines 276-379). -/
def build_summary_blocks (summary_text : PyStr) : List Block :=
  if summary_text = [] then []
  else
    let split := splitSummary summary_text
    (split.1.map fun ln => Block.numberedListItem (bulletRich (highlightTitleBody ln))) ++
    (if split.2 = [] then [] else [closingBlock split.2])

/-- The block sequence built and appended by `write_summary_and_transcript`
(lines 382-425): heading, summary blocks, divider, transcript paragraph
blocks. -/
def write_children (summary_text transcript_text : PyStr) : List Block :=
  [Block.heading2 [⟨summaryMarker, false⟩]]
    ++ build_summary_blocks summary_text
    ++ [Block.divider]
    ++ build_paragraph_blocks transcript_text

/-- Longest common leading run of two character lists (the margin
computation of `textwrap.dedent`). -/
def sharedStart : List Char → List Char → List Char
  | a :: as, b :: bs => if a = b then a :: sharedStart as bs else []
  | _, _ => []

/-- Leading run of spaces and tabs of a line. -/
def lineIndent (l : PyStr) : PyStr := l.takeWhile fun c => c = ' ' || c = '\t'

/-- True when the line has a character that is not a space or tab. -/
def lineHasContent (l : PyStr) : Bool := l.any fun c => !(c = ' ' || c = '\t')

/-- True when the line is non-empty and made only of spaces and tabs. -/
def wsOnlyLine (l : PyStr) : Bool := !l.isEmpty && l.all fun c => c = ' ' || c = '\t'

/-- `textwrap.dedent`: blank out whitespace-only lines, compute the common
leading whitespace margin of the content lines, and strip it from every
line that carries it. -/
def pyDedent (s : PyStr) : PyStr :=
  let blanked := (splitOnChar '\n' s).map fun l => if wsOnlyLine l then [] else l
  let indents := (blanked.filter lineHasContent).map lineIndent
  let margin :=
    match indents with
    | [] => ([] : PyStr)
    | i :: is => is.foldl sharedStart i
  if margin = [] then List.intercalate ['\n'] blanked
  else
    List.intercalate ['\n']
      (blanked.map fun l => if margin.isPrefixOf l then l.drop margin.length else l)

/-- `build_gemini_prompt` (lines 126-157): the dedented, stripped Chinese
prompt template with the title and transcript spliced in. -/
def build_gemini_prompt (title transcript : PyStr) : PyStr :=
  pyStrip (pyDedent (
    "請根據以下 YouTube 影片《".data ++ title ++
    "》的逐字稿，進行內容整理與摘要。\n\n        請嚴格遵守以下格式與規則：\n        1. 全程使用繁體中文。\n        2. 只允許輸出兩個段落區塊，不要有任何其它文字說明：\n           (1) 第一部分標題為「重點整理」，底下使用條列式，整理大約 10 點重點。\n               - 每一點單獨一行，使用「- 」開頭。\n               - 每一點中，請將最重要的關鍵詞或主題使用 **粗體** 標記，例如：\n                 - **NAS 儲存空間**：說明其用途與適合族群...\n           (2) 第二部分標題為「總結：」，接著是一段約 300 個字的完整總結段落。\n               - 在總結段落中，也請適度將關鍵名詞或重要概念使用 **粗體** 標記。\n        3. 不要有任何開場白，不要自我介紹，不要寫「如果覺得有幫助」等結語或行動呼籲。\n        4. 不要提及你是 AI 或模型，不要出現「我認為」「Gemini 說」等主詞。\n\n        逐字稿如下：\n        ".data ++
    transcript ++ "\n        ".data))

/-- The boilerplate denylist of the tail cleaning (lines 482-489). -/
def denyKeys : List PyStr :=
  ["如果覺得這個摘要有幫助".data, "如果覺得有幫助".data, "歡迎再提供更多內容".data,
   "您可以直接提供".data, "後續行動".data, "gemini".data]

/-- `ln.replace(" ", "").lower()` (line 479); `Char.toLower` matches
Python's lowering on the ASCII denylist key involved. -/
def normalizeLine (l : PyStr) : PyStr := (l.filter fun c => c ≠ ' ').map Char.toLower

/-- True when a summary line matches the boilerplate denylist
(lines 480-490). -/
def isBoilerplate (ln : PyStr) : Bool :=
  denyKeys.any fun key => pyContains key (normalizeLine ln)

/-- The summary tail cleaning of `main` (lines 476-494): right-strip each
line, drop denylisted lines, newline-join and strip. -/
def cleanSummary (s : PyStr) : PyStr :=
  pyStrip (List.intercalate ['\n']
    (((pySplitlines s).map pyRstrip).filter fun ln => !isBoilerplate ln))

/-- One page as read from the store: its identifier, its extracted title
text (the `title_text` of lines 441-446, with the JSON property plumbing
modelled away) and its current blocks, with pagination flattened. -/
structure Page where
  id : String
  title : PyStr
  blocks : List Block
deriving DecidableEq, Repr

/-- One observable call against an external collaborator, in order: a
summarizer invocation, one block-archive call of
`archive_existing_blocks`, or the final children-append call. -/
inductive Effect where
  | gemini (prompt : PyStr)
  | archiveBlock (pageId : String) (b : Block)
  | append (pageId : String) (children : List Block)
deriving DecidableEq, Repr

/-- The prompt `main` builds for a page (line 459). -/
def pagePrompt (page : Page) : PyStr :=
  build_gemini_prompt (if page.title = [] then "(untitled)".data else page.title)
    (extract_transcript_text page.blocks)

/-- The tail of the per-page body after a summary was obtained
(lines 471-505): skip on empty summary, clean, skip on empty cleaned
summary, else archive every block and append the rebuilt children.
Returns the effects and whether the page counts as processed. -/
def afterSummary (page : Page) (summary : PyStr) : List Effect × Bool :=
  if summary = [] then ([], false)
  else if cleanSummary summary = [] then ([], false)
  else
    (page.blocks.map (Effect.archiveBlock page.id)
      ++ [Effect.append page.id
            (write_children (cleanSummary summary) (extract_transcript_text page.blocks))],
     true)

/-- The per-page body of `main` (lines 439-505): guard check, transcript
check, summarizer call with one retry on failure, then `afterSummary`.
`gem` is the summarizer oracle, indexed by a global call counter; the
result is `(effects, number of summarizer calls made, processed?)`. -/
def processPage (gem : Nat → PyStr → Except PyStr PyStr) (calls : Nat) (page : Page) :
    List Effect × Nat × Bool :=
  if has_summary_heading page.blocks then ([], 0, false)
  else if extract_transcript_text page.blocks = [] then ([], 0, false)
  else
    match gem calls (pagePrompt page) with
    | .ok summary =>
      let r := afterSummary page summary
      (Effect.gemini (pagePrompt page) :: r.1, 1, r.2)
    | .error _ =>
      match gem (calls + 1) (pagePrompt page) with
      | .ok summary =>
        let r := afterSummary page summary
        (Effect.gemini (pagePrompt page) :: Effect.gemini (pagePrompt page) :: r.1, 2, r.2)
      | .error _ =>
        ([Effect.gemini (pagePrompt page), Effect.gemini (pagePrompt page)], 2, false)

/-- The batch loop of `main` (lines 436-505): stop once `limit` pages were
processed, otherwise run the per-page body and continue with the updated
processed count and call counter. -/
def runPages (gem : Nat → PyStr → Except PyStr PyStr) (limit : Nat) :
    List Page → Nat → Nat → List Effect
  | [], _, _ => []
  | page :: rest, processed, calls =>
    if limit ≤ processed then []
    else
      let r := processPage gem calls page
      r.1 ++ runPages gem limit rest (if r.2.2 then processed + 1 else processed) (calls + r.2.1)

theorem chunksOfSize_flatten (l : List Char) : (chunksOfSize l).flatten = l := by
  by_cases hl : l = []
  · subst hl
    simp [chunksOfSize_nil]
  · rw [chunksOfSize_cons hl, List.flatten_cons,
      chunksOfSize_flatten (l.drop CHUNK_SIZE)]
    exact List.take_append_drop CHUNK_SIZE l
termination_by l.length
decreasing_by
  have hpos : 0 < l.length := List.length_pos.mpr hl
  simp [List.length_drop, CHUNK_SIZE]
  omega

theorem chunksOfSize_le (l : List Char) :
    ∀ c ∈ chunksOfSize l, c.length ≤ CHUNK_SIZE := by
  by_cases hl : l = []
  · subst hl
    simp [chunksOfSize_nil]
  · rw [chunksOfSize_cons hl]
    intro c hc
    rcases List.mem_cons.mp hc with h | h
    · subst h
      exact List.length_take_le _ _
    · exact chunksOfSize_le (l.drop CHUNK_SIZE) c h
termination_by l.length
decreasing_by
  have hpos : 0 < l.length := List.length_pos.mpr hl
  simp [List.length_drop, CHUNK_SIZE]
  omega

theorem chunksOfSize_count (l : List Char) :
    (chunksOfSize l).length = (l.length + (CHUNK_SIZE - 1)) / CHUNK_SIZE := by
  by_cases hl : l = []
  · subst hl
    simp [chunksOfSize_nil, CHUNK_SIZE]
  · have hpos : 0 < l.length := List.length_pos.mpr hl
    rw [chunksOfSize_cons hl]
    simp only [List.length_cons]
    rw [chunksOfSize_count (l.drop CHUNK_SIZE)]
    simp only [List.length_drop]
    by_cases hle : l.length ≤ CHUNK_SIZE
    · have h0 : l.length - CHUNK_SIZE = 0 := by omega
      rw [h0]
      simp only [CHUNK_SIZE] at hle ⊢
      have hz : (0 + 1499) / 1500 = 0 := by norm_num
      rw [hz]
      symm
      have hlo : 1 * 1500 ≤ l.length + 1499 := by omega
      have hhi : l.length + 1499 < (1 + 1) * 1500 := by omega
      exact Nat.div_eq_of_lt_le hlo hhi
    · push_neg at hle
      have h2 : l.length + (CHUNK_SIZE - 1)
          = (l.length - CHUNK_SIZE + (CHUNK_SIZE - 1)) + CHUNK_SIZE := by
        simp only [CHUNK_SIZE] at hle ⊢
        omega
      rw [h2, Nat.add_div_right _ (by simp [CHUNK_SIZE] : 0 < CHUNK_SIZE)]
termination_by l.length
decreasing_by
  simp [List.length_drop, CHUNK_SIZE]
  omega

theorem splitParagraphs_nil : splitParagraphs [] = [] := rfl

/-- C5: `build_paragraph_blocks` (with chunk size 1500) splits its input
on blank-line boundaries into trimmed non-empty paragraphs; each paragraph
of length `L` contributes, in order, exactly `⌈L/1500⌉` consecutive chunks
of length at most 1500 whose concatenation is the paragraph; chunks of
different paragraphs are never merged (the block list is the concatenation
of the per-paragraph block lists), and empty text yields no blocks. -/
theorem c5_segmenter (text : PyStr) :
    build_paragraph_blocks text
      = (splitParagraphs text).flatMap (fun para => (chunksOfSize para).map mkParagraphBlock)
    ∧ (∀ para ∈ splitParagraphs text,
        (chunksOfSize para).length = (para.length + 1499) / 1500
        ∧ (∀ c ∈ chunksOfSize para, c.length ≤ 1500)
        ∧ (chunksOfSize para).flatten = para)
    ∧ (text = [] → build_paragraph_blocks text = []) := by
  refine ⟨?_, ?_, ?_⟩
  · by_cases h : text = []
    · subst h
      rw [build_paragraph_blocks, if_pos rfl, splitParagraphs_nil]
      rfl
    · rw [build_paragraph_blocks, if_neg h]
  · intro para _
    refine ⟨?_, ?_, chunksOfSize_flatten para⟩
    · have := chunksOfSize_count para
      simpa [CHUNK_SIZE] using this
    · have := chunksOfSize_le para
      simpa [CHUNK_SIZE] using this
  · intro h
    subst h
    rw [build_paragraph_blocks, if_pos rfl]

/-- C5 witness: the segmenter facts at the concrete input `"ab\n\ncd"`. -/
theorem c5_witness :
    build_paragraph_blocks ("ab\n\ncd".data)
      = (splitParagraphs ("ab\n\ncd".data)).flatMap
          (fun para => (chunksOfSize para).map mkParagraphBlock)
    ∧ "ab".data ∈ splitParagraphs ("ab\n\ncd".data)
    ∧ (chunksOfSize ("ab".data)).length = ("ab".data.length + 1499) / 1500
    ∧ (chunksOfSize ("ab".data)).flatten = "ab".data := by
  have h := c5_segmenter ("ab\n\ncd".data)
  have hmem : "ab".data ∈ splitParagraphs ("ab\n\ncd".data) := by decide
  exact ⟨h.1, hmem, ((h.2.1 _ hmem).1), ((h.2.1 _ hmem).2.2)⟩

theorem stripDelims_decomp :
    ∀ {j : Nat} {l : List Char}, findBold l = some j →
      stripDelims l = l.take j ++ stripDelims (l.drop j) := by
  intro j
  induction j with
  | zero =>
    intro l _
    simp
  | succ k ih =>
    intro l hf
    cases l with
    | nil => simp [findBold] at hf
    | cons c rest =>
      unfold findBold at hf
      by_cases hsb : startsBold (c :: rest)
      · rw [if_pos hsb] at hf
        simp at hf
      · rw [if_neg hsb] at hf
        rw [Option.map_eq_some'] at hf
        obtain ⟨m, hm, hmk⟩ := hf
        have hk : m = k := by omega
        subst hk
        rw [stripDelims_cons (by simpa using hsb), ih hm]
        simp [List.take_succ_cons, List.drop_succ_cons]

theorem stripDelims_of_none {l : List Char} (hf : findBold l = none) :
    stripDelims l = l := by
  induction l with
  | nil => exact stripDelims_nil
  | cons c rest ih =>
    unfold findBold at hf
    by_cases hsb : startsBold (c :: rest)
    · rw [if_pos hsb] at hf
      simp at hf
    · rw [if_neg hsb] at hf
      have hrest : findBold rest = none := by
        simpa using hf
      rw [stripDelims_cons (by simpa using hsb), ih hrest]

theorem richPlainText_mdLoop (l : List Char) (b : Bool) :
    richPlainText (mdLoop l b) = stripDelims l := by
  by_cases hl : l = []
  · subst hl
    rw [mdLoop_nil, stripDelims_nil]
    rfl
  · by_cases hsb : startsBold l
    · rw [mdLoop_bold b hsb, stripDelims_bold hsb]
      exact richPlainText_mdLoop (l.drop 2) (!b)
    · cases l with
      | nil => exact absurd rfl hl
      | cons c rest =>
        cases hf : findBold (c :: rest) with
        | none =>
          rw [mdLoop_none b (by simpa using hsb) hf, stripDelims_of_none hf]
          simp [richPlainText]
        | some j =>
          rw [mdLoop_some b (by simpa using hsb) hf, stripDelims_decomp hf]
          simp only [richPlainText, List.map_cons, List.flatten_cons]
          congr 1
          exact richPlainText_mdLoop ((c :: rest).drop j) b
termination_by l.length
decreasing_by
  · have h2 := startsBold_length hsb
    simp [List.length_drop]
    omega
  · have hj := findBold_pos (by simpa using hsb) hf
    simp [List.length_drop]
    omega

/-- C7 counterexample: on the input `"**"` (only delimiters), the
fallback span of `md_to_rich_text` carries the delimiters themselves, so
the concatenated span contents are not the input with `**` removed. -/
theorem c7_counterexample :
    richPlainText (md_to_rich_text ("**".data)) ≠ stripDelims ("**".data) := by
  decide

/-- C7 (amended): for every input whose left-to-right non-overlapping
removal of `**` is non-empty — and for the empty input — concatenating the
span contents of `md_to_rich_text` yields the input with the `**`
occurrences removed, and `"**a**b**c**"` parses to exactly the spans
`a` (bold), `b` (plain), `c` (bold); on a non-empty input consisting
solely of `**` delimiters the fallback span instead carries the input
verbatim, delimiters included. -/
theorem c7_concat_amended :
    (∀ l : PyStr, stripDelims l ≠ [] ∨ l = [] →
      richPlainText (md_to_rich_text l) = stripDelims l)
    ∧ md_to_rich_text ("**a**b**c**".data)
        = [⟨"a".data, true⟩, ⟨"b".data, false⟩, ⟨"c".data, true⟩] := by
  constructor
  · intro l hl
    unfold md_to_rich_text
    by_cases hp : mdLoop l false = []
    · rw [if_pos hp]
      have hstrip : stripDelims l = [] := by
        rw [← richPlainText_mdLoop l false, hp]
        rfl
      rcases hl with h | h
      · exact absurd hstrip h
      · subst h
        rw [stripDelims_nil]
        simp [richPlainText]
    · rw [if_neg hp]
      exact richPlainText_mdLoop l false
  · decide

/-- C7 witness: the amended statement applied at `"**a**".` -/
theorem c7_witness :
    (stripDelims ("**a**".data) ≠ [] ∨ "**a**".data = [])
    ∧ richPlainText (md_to_rich_text ("**a**".data)) = stripDelims ("**a**".data) := by
  refine ⟨Or.inl (by decide), ?_⟩
  exact c7_concat_amended.1 _ (Or.inl (by decide))

theorem findBold_of_no_delim :
    ∀ {l : List Char}, pyContains ['*', '*'] l = false → findBold l = none := by
  intro l
  induction l with
  | nil =>
    intro _
    rfl
  | cons c rest ih =>
    intro h
    have hnot : ¬ (['*', '*'] <:+: (c :: rest)) := by
      simpa [pyContains] using h
    unfold findBold
    have hsb : startsBold (c :: rest) = false := by
      by_contra hb
      simp at hb
      have ht : (c :: rest).take 2 = ['*', '*'] := by simpa [startsBold] using hb
      have hpre : ['*', '*'] <+: (c :: rest) := by
        rw [← ht]
        exact List.take_prefix 2 (c :: rest)
      exact hnot hpre.isInfix
    rw [hsb]
    simp only [Bool.false_eq_true, if_false]
    have hrest : pyContains ['*', '*'] rest = false := by
      simp only [pyContains, decide_eq_false_iff_not]
      intro hin
      exact hnot (hin.trans (List.suffix_cons c rest).isInfix)
    rw [ih hrest]
    rfl

theorem startsBold_of_no_delim {l : List Char}
    (h : pyContains ['*', '*'] l = false) : startsBold l = false := by
  by_contra hb
  simp at hb
  have ht : l.take 2 = ['*', '*'] := by simpa [startsBold] using hb
  have hpre : ['*', '*'] <+: l := by
    rw [← ht]
    exact List.take_prefix 2 l
  simp [pyContains, hpre.isInfix] at h

/-- C3 counterexample: `md_to_rich_text` applied to the empty string does
not return an empty span sequence — the fallback appends one span with
empty content. -/
theorem c3_counterexample : md_to_rich_text [] ≠ ([] : List RichText) := by
  decide

/-- C3 (amended): `md_to_rich_text` applied to the empty string returns
exactly one span with empty content and bold false (not an empty
sequence), and applied to any non-empty string containing no `**`
delimiter returns exactly one span whose content is the input and whose
bold flag is false. -/
theorem c3_parser_amended :
    md_to_rich_text [] = [⟨[], false⟩]
    ∧ (∀ l : PyStr, l ≠ [] → pyContains ['*', '*'] l = false →
        md_to_rich_text l = [⟨l, false⟩]) := by
  constructor
  · decide
  · intro l hl hno
    cases l with
    | nil => exact absurd rfl hl
    | cons c rest =>
      have hsb := startsBold_of_no_delim hno
      have hf := findBold_of_no_delim hno
      unfold md_to_rich_text
      rw [mdLoop_none false hsb hf]
      simp

/-- C3 witness: the amended statement applied at `"hello".` -/
theorem c3_witness :
    "hello".data ≠ ([] : PyStr)
    ∧ pyContains ['*', '*'] ("hello".data) = false
    ∧ md_to_rich_text ("hello".data) = [⟨"hello".data, false⟩] := by
  refine ⟨by decide, by decide, ?_⟩
  exact c3_parser_amended.2 _ (by decide) (by decide)

theorem pyDigit_ne_dash {d : Char} (h : pyDigit d = true) : d ≠ '-' := by
  intro he
  subst he
  exact absurd h (by decide)

theorem enumDelim_not_digit {c : Char} (h : [c] ∈ enumDelims) :
    pyDigit c = false := by
  have hc : c = '.' ∨ c = '、' ∨ c = '．' := by
    simpa [enumDelims] using h
  rcases hc with h1 | h1 | h1 <;> subst h1 <;> decide

/-- C2 counterexample: the highlight line `1、甲：乙` begins with the
digit `1` followed by `、`, yet the enumerator prefix is not removed — the
line is split into title `1、甲` and body `乙`, not title `甲` and body
`乙` as the claim requires. -/
theorem c2_counterexample :
    highlightTitleBody ("1、甲：乙".data) ≠ ("甲".data, "乙".data) := by
  decide

/-- C2 (amended): a highlight line beginning with the list-bullet prefix
`- ` has that prefix (and following whitespace) removed before the
title/body split; an enumerator prefix is removed only when the first
*two* characters are digits and the third is one of `.`, `、`, `．`
(the first three characters plus following whitespace are dropped,
matching `raw[:2].isdigit() and raw[2:3] in ...`); a single digit
followed by such a delimiter is not stripped. -/
theorem c2_bullet_strip_amended :
    (∀ rest : PyStr,
      highlightTitleBody ('-' :: ' ' :: rest) = splitTitleBody (pyLstrip rest))
    ∧ (∀ (d₁ d₂ c : Char) (rest : PyStr),
        pyDigit d₁ = true → pyDigit d₂ = true → [c] ∈ enumDelims →
        highlightTitleBody (d₁ :: d₂ :: c :: rest) = splitTitleBody (pyLstrip rest))
    ∧ (∀ (d c : Char) (rest : PyStr),
        pyDigit d = true → [c] ∈ enumDelims →
        highlightTitleBody (d :: c :: rest) = splitTitleBody (d :: c :: rest)) := by
  refine ⟨?_, ?_, ?_⟩
  · intro rest
    have hcond : ('-' :: ' ' :: rest).take 2 = "- ".data := by
      simp [List.take_succ_cons]
    unfold highlightTitleBody stripBulletLead
    rw [if_pos hcond]
    rfl
  · intro d₁ d₂ c rest h1 h2 hc
    have hne : (d₁ :: d₂ :: c :: rest).take 2 ≠ "- ".data := by
      intro he
      simp only [List.take_succ_cons, List.take_zero] at he
      have hd : d₁ = '-' := by
        have := congrArg (fun l => l.headI) he
        simpa using this
      exact pyDigit_ne_dash h1 hd
    have hdig : pyIsdigitStr ((d₁ :: d₂ :: c :: rest).take 2) = true := by
      simp only [List.take_succ_cons, List.take_zero]
      simp [pyIsdigitStr, h1, h2]
    have hdel : ((d₁ :: d₂ :: c :: rest).drop 2).take 1 ∈ enumDelims := by
      simpa [List.take_succ_cons] using hc
    unfold highlightTitleBody stripBulletLead
    rw [if_neg hne, if_pos ⟨hdig, hdel⟩]
    rfl
  · intro d c rest hd hc
    have hcf : pyDigit c = false := enumDelim_not_digit hc
    have hne1 : (d :: c :: rest).take 2 ≠ "- ".data := by
      intro he
      simp only [List.take_succ_cons, List.take_zero] at he
      have hdd : d = '-' := by
        have := congrArg (fun l => l.headI) he
        simpa using this
      exact pyDigit_ne_dash hd hdd
    have hne2 : ¬(pyIsdigitStr ((d :: c :: rest).take 2) = true
        ∧ ((d :: c :: rest).drop 2).take 1 ∈ enumDelims) := by
      rintro ⟨ha, -⟩
      simp only [List.take_succ_cons, List.take_zero] at ha
      simp [pyIsdigitStr, hcf] at ha
    unfold highlightTitleBody stripBulletLead
    rw [if_neg hne1, if_neg hne2]

/-- C2 witness: the amended statement applied at `- A：B`, `10.C` and
`1.C`. -/
theorem c2_witness :
    highlightTitleBody ('-' :: ' ' :: "A：B".data) = splitTitleBody (pyLstrip ("A：B".data))
    ∧ pyDigit '1' = true
    ∧ pyDigit '0' = true
    ∧ ['.'] ∈ enumDelims
    ∧ highlightTitleBody ('1' :: '0' :: '.' :: "C".data) = splitTitleBody (pyLstrip ("C".data))
    ∧ highlightTitleBody ('1' :: '.' :: "C".data) = splitTitleBody ('1' :: '.' :: "C".data) := by
  refine ⟨c2_bullet_strip_amended.1 _, by decide, by decide, by decide, ?_, ?_⟩
  · exact c2_bullet_strip_amended.2.1 '1' '0' '.' ("C".data) (by decide) (by decide) (by decide)
  · exact c2_bullet_strip_amended.2.2 '1' '.' ("C".data) (by decide) (by decide)

/-- C4: the idempotency guard is true iff some heading block's
concatenated plain text contains `內容摘要`; a document whose only heading
text is `內容摘要` yields true, and a document consisting only of
paragraph blocks yields false (even when a paragraph carries the
marker). -/
theorem c4_guard_iff (blocks : List Block) :
    (has_summary_heading blocks = true ↔
      ∃ b ∈ blocks, ∃ r,
        (b = Block.heading1 r ∨ b = Block.heading2 r ∨ b = Block.heading3 r)
        ∧ summaryMarker <:+: richPlainText r)
    ∧ has_summary_heading [Block.heading2 [⟨"內容摘要".data, false⟩]] = true
    ∧ has_summary_heading
        [Block.paragraph [⟨"內容摘要".data, false⟩], Block.paragraph []] = false := by
  refine ⟨?_, by decide, by decide⟩
  rw [has_summary_heading, List.any_eq_true]
  constructor
  · rintro ⟨b, hb, hmark⟩
    refine ⟨b, hb, ?_⟩
    cases b with
    | heading1 r =>
      exact ⟨r, Or.inl rfl, by simpa [isMarkerHeading, pyContains] using hmark⟩
    | heading2 r =>
      exact ⟨r, Or.inr (Or.inl rfl), by simpa [isMarkerHeading, pyContains] using hmark⟩
    | heading3 r =>
      exact ⟨r, Or.inr (Or.inr rfl), by simpa [isMarkerHeading, pyContains] using hmark⟩
    | paragraph r => simp [isMarkerHeading] at hmark
    | numberedListItem r => simp [isMarkerHeading] at hmark
    | divider => simp [isMarkerHeading] at hmark
  · rintro ⟨b, hb, r, hshape, hin⟩
    refine ⟨b, hb, ?_⟩
    rcases hshape with h | h | h <;> subst h <;> simp [isMarkerHeading, pyContains, hin]

theorem classifyLoop_inSummary (lines : List PyStr) :
    classifyLoop lines true = ([], lines) := by
  induction lines with
  | nil => rfl
  | cons ln rest ih =>
    by_cases h : isConclusionLine ln
    · simp [classifyLoop, h, ih]
    · simp [classifyLoop, h, ih]

theorem classifyLoop_split_take (lines : List PyStr) :
    classifyLoop lines false
      = (lines.takeWhile (fun l => !isConclusionLine l),
         lines.dropWhile (fun l => !isConclusionLine l)) := by
  induction lines with
  | nil => rfl
  | cons ln rest ih =>
    by_cases h : isConclusionLine ln
    · simp [classifyLoop, h, classifyLoop_inSummary, List.takeWhile_cons,
        List.dropWhile_cons]
    · simp [classifyLoop, h, ih, List.takeWhile_cons, List.dropWhile_cons]

/-- C6: the highlights/closing split of the summary classifier is a
one-way transition — every trimmed non-empty line before the first
conclusion-marker line (`總結：` or `總結:`) goes to the highlight
collection, and every line from that line onward (inclusive) goes to the
closing collection; on `"- X：Y\n- Z\n總結：ABC\nDEF"` the highlight items
are `(X, Y)` and `(Z, ε)` and the closing body is `ABC DEF`. -/
theorem c6_classifier_one_way :
    (∀ s : PyStr,
      splitSummary s
        = ((summaryLines s).takeWhile (fun l => !isConclusionLine l),
           (summaryLines s).dropWhile (fun l => !isConclusionLine l)))
    ∧ (splitSummary ("- X：Y\n- Z\n總結：ABC\nDEF".data)).1.map highlightTitleBody
        = [("X".data, "Y".data), ("Z".data, [])]
    ∧ closingBody (splitSummary ("- X：Y\n- Z\n總結：ABC\nDEF".data)).2
        = "ABC DEF".data := by
  exact ⟨fun s => classifyLoop_split_take (summaryLines s), by decide, by decide⟩

theorem dropWhile_replicate_a (n : Nat) :
    List.dropWhile pyWS (List.replicate n 'a') = List.replicate n 'a' := by
  cases n with
  | zero => simp
  | succ k =>
    rw [List.replicate_succ, List.dropWhile_cons]
    simp [show pyWS 'a' = false from by decide]

theorem pyStrip_replicate_a (n : Nat) :
    pyStrip (List.replicate n 'a') = List.replicate n 'a' := by
  unfold pyStrip List.rdropWhile
  rw [dropWhile_replicate_a, List.reverse_replicate, dropWhile_replicate_a,
    List.reverse_replicate]

theorem extract_eq_take (blocks : List Block) :
    extract_transcript_text blocks
      = (full_transcript_text blocks).take MAX_TRANSCRIPT_CHARS := by
  simp only [extract_transcript_text]
  split
  · rfl
  · rename_i h
    push_neg at h
    exact (List.take_of_length_le h).symm

/-- C1 counterexample: a page with a single 60,001-character paragraph —
`extract_transcript_text`, whose result `main` hands to
`write_summary_and_transcript`, differs from the untruncated newline-join
of the paragraph text, so the rebuilt transcript blocks are not produced
from the full text. -/
theorem transcriptParts_single {l : PyStr} (hstrip : pyStrip l = l) (hne : l ≠ []) :
    transcriptParts [Block.paragraph [⟨l, false⟩]] = [l] := by
  have hr : richPlainText [⟨l, false⟩] = l := by simp [richPlainText]
  unfold transcriptParts
  simp only [List.filterMap_cons, List.filterMap_nil, hr, hstrip]
  simp [hne]

theorem intercalate_single (sep l : PyStr) : List.intercalate sep [l] = l := by
  simp [List.intercalate]

theorem c1_counterexample :
    extract_transcript_text [Block.paragraph [⟨List.replicate 60001 'a', false⟩]]
      ≠ full_transcript_text [Block.paragraph [⟨List.replicate 60001 'a', false⟩]] := by
  have hne : List.replicate 60001 'a' ≠ [] := by
    have hpos : 0 < (List.replicate 60001 'a').length := by
      rw [List.length_replicate]
      omega
    exact List.length_pos.mp hpos
  have hparts : transcriptParts [Block.paragraph [⟨List.replicate 60001 'a', false⟩]]
      = [List.replicate 60001 'a'] :=
    transcriptParts_single (pyStrip_replicate_a 60001) hne
  have hfull : full_transcript_text [Block.paragraph [⟨List.replicate 60001 'a', false⟩]]
      = List.replicate 60001 'a' := by
    rw [full_transcript_text, hparts, intercalate_single]
  intro h
  rw [extract_eq_take, hfull] at h
  have hlen := congrArg List.length h
  rw [List.length_take, List.length_replicate] at hlen
  simp only [MAX_TRANSCRIPT_CHARS] at hlen
  omega

/-- C1 (amended): the transcript text handed to the rebuild step is the
*truncated* transcript — on a successful run the appended children are
built from `extract_transcript_text`, which equals the first 60,000
characters of the newline-joined paragraph text; truncation therefore
applies to the rebuilt transcript blocks as well as to the summarization
prompt input. -/
theorem c1_rebuild_uses_truncated (gem : Nat → PyStr → Except PyStr PyStr)
    (calls : Nat) (page : Page) (s : PyStr)
    (hg : has_summary_heading page.blocks = false)
    (ht : extract_transcript_text page.blocks ≠ [])
    (hok : gem calls (pagePrompt page) = Except.ok s)
    (hs : s ≠ []) (hcl : cleanSummary s ≠ []) :
    processPage gem calls page
      = (Effect.gemini (pagePrompt page)
          :: (page.blocks.map (Effect.archiveBlock page.id)
            ++ [Effect.append page.id
                  (write_children (cleanSummary s)
                    (extract_transcript_text page.blocks))]),
         1, true)
    ∧ extract_transcript_text page.blocks
        = (full_transcript_text page.blocks).take MAX_TRANSCRIPT_CHARS := by
  refine ⟨?_, extract_eq_take page.blocks⟩
  unfold processPage afterSummary
  simp only [hg, Bool.false_eq_true, if_false]
  rw [if_neg ht]
  simp only [hok]
  rw [if_neg hs, if_neg hcl]

/-- C1 witness: the amended statement at a one-paragraph page and a
summarizer that answers `總結：好`. -/
theorem c1_witness :
    processPage (fun _ _ => Except.ok ("總結：好".data)) 0
        ⟨"p1", [], [Block.paragraph [⟨"哈".data, false⟩]]⟩
      = (Effect.gemini (pagePrompt ⟨"p1", [], [Block.paragraph [⟨"哈".data, false⟩]]⟩)
          :: ([Block.paragraph [⟨"哈".data, false⟩]].map (Effect.archiveBlock "p1")
            ++ [Effect.append "p1"
                  (write_children (cleanSummary ("總結：好".data))
                    (extract_transcript_text [Block.paragraph [⟨"哈".data, false⟩]]))]),
         1, true)
    ∧ extract_transcript_text [Block.paragraph [⟨"哈".data, false⟩]]
        = (full_transcript_text [Block.paragraph [⟨"哈".data, false⟩]]).take
            MAX_TRANSCRIPT_CHARS := by
  exact c1_rebuild_uses_truncated _ 0 _ ("總結：好".data)
    (by decide) (by decide) rfl (by decide) (by decide)

/-- C8: when the summarizer fails, the orchestrator retries exactly once
with the same prompt; when the retry also fails, the page contributes
exactly the two summarizer calls — no archive call and no append call —
it is not counted as processed, and the batch continues with the
remaining pages. -/
theorem c8_retry_skip (gem : Nat → PyStr → Except PyStr PyStr)
    (limit processed calls : Nat) (page : Page) (rest : List Page) (e₁ e₂ : PyStr)
    (hlim : processed < limit)
    (hg : has_summary_heading page.blocks = false)
    (ht : extract_transcript_text page.blocks ≠ [])
    (h1 : gem calls (pagePrompt page) = Except.error e₁)
    (h2 : gem (calls + 1) (pagePrompt page) = Except.error e₂) :
    processPage gem calls page
      = ([Effect.gemini (pagePrompt page), Effect.gemini (pagePrompt page)], 2, false)
    ∧ runPages gem limit (page :: rest) processed calls
        = Effect.gemini (pagePrompt page) :: Effect.gemini (pagePrompt page)
          :: runPages gem limit rest processed (calls + 2)
    ∧ (∀ (pid : String) (b : Block) (children : List Block),
        Effect.archiveBlock pid b ∉ (processPage gem calls page).1
        ∧ Effect.append pid children ∉ (processPage gem calls page).1) := by
  have hp : processPage gem calls page
      = ([Effect.gemini (pagePrompt page), Effect.gemini (pagePrompt page)], 2, false) := by
    unfold processPage
    simp only [hg, Bool.false_eq_true, if_false]
    rw [if_neg ht, h1, h2]
  refine ⟨hp, ?_, ?_⟩
  · simp only [runPages]
    rw [if_neg (by omega : ¬ limit ≤ processed), hp]
    simp
  · intro pid b children
    rw [hp]
    constructor <;> simp

/-- C8 witness: the retry/skip statement at a one-page batch whose
summarizer always fails. -/
theorem c8_witness :
    processPage (fun _ _ => Except.error ("boom".data)) 0
        ⟨"p1", [], [Block.paragraph [⟨"哈".data, false⟩]]⟩
      = ([Effect.gemini (pagePrompt ⟨"p1", [], [Block.paragraph [⟨"哈".data, false⟩]]⟩),
          Effect.gemini (pagePrompt ⟨"p1", [], [Block.paragraph [⟨"哈".data, false⟩]]⟩)],
         2, false)
    ∧ runPages (fun _ _ => Except.error ("boom".data)) 1
          [⟨"p1", [], [Block.paragraph [⟨"哈".data, false⟩]]⟩] 0 0
        = Effect.gemini (pagePrompt ⟨"p1", [], [Block.paragraph [⟨"哈".data, false⟩]]⟩)
          :: Effect.gemini (pagePrompt ⟨"p1", [], [Block.paragraph [⟨"哈".data, false⟩]]⟩)
          :: runPages (fun _ _ => Except.error ("boom".data)) 1 [] 0 2
    ∧ (∀ (pid : String) (b : Block) (children : List Block),
        Effect.archiveBlock pid b
          ∉ (processPage (fun _ _ => Except.error ("boom".data)) 0
              ⟨"p1", [], [Block.paragraph [⟨"哈".data, false⟩]]⟩).1
        ∧ Effect.append pid children
          ∉ (processPage (fun _ _ => Except.error ("boom".data)) 0
              ⟨"p1", [], [Block.paragraph [⟨"哈".data, false⟩]]⟩).1) := by
  exact c8_retry_skip _ 1 0 0 _ [] ("boom".data) ("boom".data)
    (by omega) (by decide) (by decide) rfl rfl

/-- C9: every block sequence produced by `write_summary_and_transcript`
begins with a `heading_2` block whose text is exactly `內容摘要`, so the
idempotency guard evaluates to true on the appended content of any
successful run. -/
theorem c9_appended_guard_true (s t : PyStr) :
    (∃ rest, write_children s t
        = Block.heading2 [⟨summaryMarker, false⟩] :: rest)
    ∧ has_summary_heading (write_children s t) = true := by
  constructor
  · exact ⟨_, rfl⟩
  · rw [has_summary_heading, write_children]
    have hh : isMarkerHeading (Block.heading2 [⟨summaryMarker, false⟩]) = true := by
      decide
    simp [List.any_append, hh]

theorem mem_build_summary_blocks_shape {s : PyStr} {b : Block}
    (hb : b ∈ build_summary_blocks s) :
    (∃ r, b = Block.numberedListItem r) ∨ (∃ r, b = Block.paragraph r) := by
  unfold build_summary_blocks at hb
  by_cases h : s = []
  · rw [if_pos h] at hb
    simp at hb
  · rw [if_neg h] at hb
    rcases List.mem_append.mp hb with h1 | h1
    · obtain ⟨ln, -, rfl⟩ := List.mem_map.mp h1
      exact Or.inl ⟨_, rfl⟩
    · by_cases h2 : (splitSummary s).2 = []
      · rw [if_pos h2] at h1
        simp at h1
      · rw [if_neg h2] at h1
        have hb2 : b = closingBlock (splitSummary s).2 := by simpa using h1
        subst hb2
        exact Or.inr ⟨_, rfl⟩

theorem mem_build_paragraph_blocks_shape {t : PyStr} {b : Block}
    (hb : b ∈ build_paragraph_blocks t) : ∃ r, b = Block.paragraph r := by
  unfold build_paragraph_blocks at hb
  by_cases h : t = []
  · rw [if_pos h] at hb
    simp at hb
  · rw [if_neg h] at hb
    obtain ⟨para, -, hmem⟩ := List.mem_flatMap.mp hb
    obtain ⟨c, -, rfl⟩ := List.mem_map.mp hmem
    exact ⟨_, rfl⟩

/-- C10: `write_summary_and_transcript` appends exactly one divider block
on every call, placed after the summary blocks and before the transcript
paragraph blocks, unconditionally — for every summary text and transcript
text (both possibly empty), the divider is present exactly once and
neither the summary blocks nor the transcript blocks contain one. -/
theorem c10_divider_once (s t : PyStr) :
    write_children s t
      = [Block.heading2 [⟨summaryMarker, false⟩]] ++ build_summary_blocks s
        ++ [Block.divider] ++ build_paragraph_blocks t
    ∧ (write_children s t).count Block.divider = 1
    ∧ Block.divider ∉ build_summary_blocks s
    ∧ Block.divider ∉ build_paragraph_blocks t := by
  have hsm : Block.divider ∉ build_summary_blocks s := by
    intro hmem
    rcases mem_build_summary_blocks_shape hmem with ⟨r, hr⟩ | ⟨r, hr⟩ <;> simp at hr
  have htm : Block.divider ∉ build_paragraph_blocks t := by
    intro hmem
    obtain ⟨r, hr⟩ := mem_build_paragraph_blocks_shape hmem
    simp at hr
  refine ⟨rfl, ?_, hsm, htm⟩
  rw [write_children, List.count_append, List.count_append, List.count_append]
  rw [List.count_eq_zero.mpr hsm, List.count_eq_zero.mpr htm]
  have h1 : ([Block.heading2 [⟨summaryMarker, false⟩]] : List Block).count Block.divider
      = 0 := by decide
  have h2 : ([Block.divider] : List Block).count Block.divider = 1 := by decide
  rw [h1, h2]

end YTSum
